import Mathlib

/-!
Verification of the property-specification core of this repository
(Include/Rocket/Core/PropertySpecification.h and its specification).

The `IdNameMap` template is fully inline in the header and is embedded
directly from the source.  The bodies of `ParseShorthandDeclaration`,
`SetPropertyDefaults` and `RegisterShorthand` are in a translation unit
that is not part of the sources at hand; those are modelled from the
specification, as marked on each definition.
-/

namespace RocketSpec

/-- Read a vector element; `std::vector<String>::operator[]` with the
default-constructed empty string for the (unreachable) out-of-range case. -/
def getAt : List String → Nat → String
  | [], _ => ""
  | s :: _, 0 => s
  | _ :: rest, n + 1 => getAt rest n

/-- Write a vector element in place (`name_map[id] = name`); out-of-range
writes are dropped (the source asserts the index is in range first). -/
def setAt : List String → Nat → String → List String
  | [], _, _ => []
  | _ :: rest, 0, v => v :: rest
  | s :: rest, n + 1, v => s :: setAt rest n v

/-- `UnorderedMap<String, ID>::find`, on an association-list model of the
hash map (keys are unique because insertion is only by `emplace`). -/
def rmFind : List (String × Nat) → String → Option Nat
  | [], _ => none
  | (n, i) :: rest, s => if n = s then some i else rmFind rest s

/-- The state of `IdNameMap<ID>`: `name_map` (ids are indices into it) and
the reverse map.  Ids are modelled as `Nat` (the enum underlying value;
`ID::Invalid = 0` is enforced by a `static_assert` in the source). -/
structure IdNameMap where
  name_map : List String
  reverse_map : List (String × Nat)
deriving DecidableEq, Repr

/-- `IdNameMap::AddPair(id, name)`.  `none` models an assertion failure
(`ROCKET_ASSERT`): either the id is out of range, or `emplace` did not
insert because the name is already a key of the reverse map.  On success
the slot is overwritten with `name` and `(name, id)` is inserted. -/
def IdNameMap.AddPair (m : IdNameMap) (id : Nat) (name : String) : Option IdNameMap :=
  if id < m.name_map.length then
    match rmFind m.reverse_map name with
    | some _ => none
    | none => some ⟨setAt m.name_map id name, m.reverse_map ++ [(name, id)]⟩
  else none

/-- The `IdNameMap(num_ids_to_reserve)` constructor: resize the name map to
`n` default (empty) strings, then `AddPair(ID::Invalid, "invalid")`.  The
`AddPair` assertion fails when `n = 0`. -/
def IdNameMap.make (n : Nat) : Option IdNameMap :=
  IdNameMap.AddPair ⟨List.replicate n "", []⟩ 0 "invalid"

/-- `IdNameMap::GetId(name)`: the reverse-map entry, or `ID::Invalid = 0`. -/
def IdNameMap.GetId (m : IdNameMap) (name : String) : Nat :=
  match rmFind m.reverse_map name with
  | some id => id
  | none => 0

/-- `IdNameMap::GetName(id)`: `name_map[id]` when in range, otherwise
`name_map[(size_t)ID::Invalid]`, i.e. slot 0. -/
def IdNameMap.GetName (m : IdNameMap) (id : Nat) : String :=
  if id < m.name_map.length then getAt m.name_map id else getAt m.name_map 0

/-- `IdNameMap::GetOrCreateId(name)`: `emplace(name, next_id)`; if the name
was absent it is appended to the name map, and the id stored for the name
(old or new) is returned, along with the updated state. -/
def IdNameMap.GetOrCreateId (m : IdNameMap) (name : String) : Nat × IdNameMap :=
  let next_id := m.name_map.length
  match rmFind m.reverse_map name with
  | some id => (id, m)
  | none => (next_id, ⟨m.name_map ++ [name], m.reverse_map ++ [(name, next_id)]⟩)

/-- `PropertyIdNameMap(reserve_num_properties)` forwards its argument to
the `IdNameMap` base constructor. -/
def PropertyIdNameMap.make (reserve_num_properties : Nat) : Option IdNameMap :=
  IdNameMap.make reserve_num_properties

/-- `ShorthandIdNameMap(reserve_num_shorthands)` ignores its argument and
passes `2 * (size_t)ShorthandId::NumDefinedIds` to the base constructor.
`ShorthandId::NumDefinedIds` is an enum constant from a header outside the
sources at hand, so it is kept as the abstract parameter `numDefinedIds`. -/
def ShorthandIdNameMap.make (numDefinedIds : Nat) (reserve_num_shorthands : Nat) :
    Option IdNameMap :=
  IdNameMap.make (2 * numDefinedIds)

/- Basic lemmas about the list helpers. -/

theorem getAt_nil (i : Nat) : getAt [] i = "" := rfl

theorem length_setAt (l : List String) (i : Nat) (v : String) :
    (setAt l i v).length = l.length := by
  induction l generalizing i with
  | nil => simp [setAt]
  | cons s rest ih =>
    cases i with
    | zero => simp [setAt]
    | succ n => simp [setAt, ih]

theorem getAt_setAt_eq (l : List String) (i : Nat) (v : String) (h : i < l.length) :
    getAt (setAt l i v) i = v := by
  induction l generalizing i with
  | nil => simp at h
  | cons s rest ih =>
    cases i with
    | zero => simp [setAt, getAt]
    | succ n =>
      simp only [setAt, getAt]
      exact ih n (by simpa using h)

theorem getAt_setAt_ne (l : List String) (i j : Nat) (v : String) (h : i ≠ j) :
    getAt (setAt l i v) j = getAt l j := by
  induction l generalizing i j with
  | nil => simp [setAt]
  | cons s rest ih =>
    cases i with
    | zero =>
      cases j with
      | zero => exact absurd rfl h
      | succ n => simp [setAt, getAt]
    | succ n =>
      cases j with
      | zero => simp [setAt, getAt]
      | succ k =>
        simp only [setAt, getAt]
        exact ih n k (fun hnk => h (by rw [hnk]))

theorem getAt_replicate (n i : Nat) : getAt (List.replicate n "") i = "" := by
  induction n generalizing i with
  | zero => rfl
  | succ n ih =>
    cases i with
    | zero => rfl
    | succ k => simpa [List.replicate, getAt] using ih k

theorem getAt_append_lt (l1 l2 : List String) (i : Nat) (h : i < l1.length) :
    getAt (l1 ++ l2) i = getAt l1 i := by
  induction l1 generalizing i with
  | nil => simp at h
  | cons s rest ih =>
    cases i with
    | zero => rfl
    | succ n => exact ih n (by simpa using h)

theorem getAt_append_len (l : List String) (v : String) :
    getAt (l ++ [v]) l.length = v := by
  induction l with
  | nil => rfl
  | cons s rest ih => simpa [getAt] using ih

theorem rmFind_append_of_none (l1 l2 : List (String × Nat)) (s : String)
    (h : rmFind l1 s = none) : rmFind (l1 ++ l2) s = rmFind l2 s := by
  induction l1 with
  | nil => rfl
  | cons p rest ih =>
    obtain ⟨n, i⟩ := p
    by_cases hn : n = s
    · simp [rmFind, hn] at h
    · simp only [rmFind, if_neg hn] at h ⊢
      simpa [List.cons_append, rmFind, hn] using ih h

theorem rmFind_append_of_some (l1 l2 : List (String × Nat)) (s : String) (i : Nat)
    (h : rmFind l1 s = some i) : rmFind (l1 ++ l2) s = some i := by
  induction l1 with
  | nil => simp [rmFind] at h
  | cons p rest ih =>
    obtain ⟨n, j⟩ := p
    by_cases hn : n = s
    · simp only [rmFind, if_pos hn] at h
      simp [rmFind, hn, h]
    · simp only [rmFind, if_neg hn] at h
      simpa [List.cons_append, rmFind, hn] using ih h

theorem rmFind_eq_none_iff (l : List (String × Nat)) (s : String) :
    rmFind l s = none ↔ ∀ p ∈ l, p.1 ≠ s := by
  induction l with
  | nil => simp [rmFind]
  | cons p rest ih =>
    obtain ⟨n, i⟩ := p
    by_cases hn : n = s
    · simp [rmFind, hn]
    · simp [rmFind, hn, ih]

theorem rmFind_mem (l : List (String × Nat)) (s : String) (i : Nat)
    (h : rmFind l s = some i) : (s, i) ∈ l := by
  induction l with
  | nil => simp [rmFind] at h
  | cons p rest ih =>
    obtain ⟨n, j⟩ := p
    by_cases hn : n = s
    · simp only [rmFind, if_pos hn] at h
      subst hn
      obtain rfl : j = i := by simpa using h
      exact List.mem_cons_self _ _
    · simp only [rmFind, if_neg hn] at h
      exact List.mem_cons_of_mem _ (ih h)

/-- The registry consistency invariant from the specification: reverse-map
keys are unique, every reverse entry points at an in-range slot holding
exactly its (nonempty) name, every nonempty slot is found back by the
reverse map at its own index, and slot 0 holds the reserved name. -/
def Invariant (m : IdNameMap) : Prop :=
  0 < m.name_map.length ∧
  getAt m.name_map 0 = "invalid" ∧
  (m.reverse_map.map Prod.fst).Nodup ∧
  (∀ p ∈ m.reverse_map,
    p.2 < m.name_map.length ∧ getAt m.name_map p.2 = p.1 ∧ p.1 ≠ "") ∧
  (∀ i, i < m.name_map.length → getAt m.name_map i ≠ "" →
    rmFind m.reverse_map (getAt m.name_map i) = some i)

instance (m : IdNameMap) : Decidable (Invariant m) := by
  unfold Invariant
  infer_instance

/-- A call against the registry: one of its two mutating member functions. -/
inductive RegistryOp where
  | addPair (id : Nat) (name : String)
  | getOrCreate (name : String)
deriving DecidableEq, Repr

/-- Run one registry call; `none` models an assertion failure aborting the
process. -/
def applyOp (m : IdNameMap) : RegistryOp → Option IdNameMap
  | .addPair id name => m.AddPair id name
  | .getOrCreate name => some (m.GetOrCreateId name).2

/-- Run a sequence of registry calls. -/
def runOps (m : IdNameMap) : List RegistryOp → Option IdNameMap
  | [] => some m
  | op :: ops => (applyOp m op).bind (fun m2 => runOps m2 ops)

/-- Whether a registry call is well-formed in state `m`: `AddPair` uses a
nonempty name and targets a currently empty in-range slot, `GetOrCreateId`
uses a nonempty name. -/
def goodOp (m : IdNameMap) : RegistryOp → Bool
  | .addPair id name =>
      decide (name ≠ "") && decide (id < m.name_map.length) &&
        decide (getAt m.name_map id = "")
  | .getOrCreate name => decide (name ≠ "")

/-- Run a sequence of registry calls, accepting only well-formed calls. -/
def runGood (m : IdNameMap) : List RegistryOp → Option IdNameMap
  | [] => some m
  | op :: ops =>
      if goodOp m op then (applyOp m op).bind (fun m2 => runGood m2 ops) else none

/- Invariant establishment and preservation. -/

theorem Invariant_make (n : Nat) (m : IdNameMap) (h : IdNameMap.make n = some m) :
    Invariant m := by
  unfold IdNameMap.make IdNameMap.AddPair at h
  by_cases hn : 0 < n
  · simp only [List.length_replicate, hn, if_true, rmFind] at h
    obtain rfl : (⟨setAt (List.replicate n "") 0 "invalid", [("invalid", 0)]⟩ : IdNameMap) = m := by
      simpa using h
    refine ⟨by simpa [length_setAt] using hn, ?_, by simp, ?_, ?_⟩
    · exact getAt_setAt_eq _ 0 _ (by simpa using hn)
    · intro p hp
      obtain rfl : p = ("invalid", 0) := by simpa using hp
      exact ⟨by simpa [length_setAt] using hn,
        getAt_setAt_eq _ 0 _ (by simpa using hn), by simp⟩
    · intro i hi hne
      rcases Nat.eq_zero_or_pos i with rfl | hpos
      · rw [getAt_setAt_eq _ 0 _ (by simpa using hn)]
        simp [rmFind]
      · exfalso
        apply hne
        rw [getAt_setAt_ne _ 0 i _ (Nat.ne_of_lt hpos)]
        exact getAt_replicate n i
  · simp only [List.length_replicate] at h
    rw [if_neg (by omega)] at h
    exact absurd h (by simp)

theorem Invariant_AddPair (m m2 : IdNameMap) (id : Nat) (name : String)
    (hinv : Invariant m) (hname : name ≠ "") (hempty : getAt m.name_map id = "")
    (h : m.AddPair id name = some m2) : Invariant m2 := by
  obtain ⟨hlen, hslot0, hnd, hrev, hfwd⟩ := hinv
  unfold IdNameMap.AddPair at h
  by_cases hid : id < m.name_map.length
  · rw [if_pos hid] at h
    cases hfind : rmFind m.reverse_map name with
    | some j => rw [hfind] at h; exact absurd h (by simp)
    | none =>
      rw [hfind] at h
      obtain rfl : (⟨setAt m.name_map id name, m.reverse_map ++ [(name, id)]⟩ : IdNameMap) = m2 := by
        simpa using h
      have hid0 : id ≠ 0 := by
        intro hzero
        rw [hzero, hslot0] at hempty
        exact absurd hempty (by simp)
      have hnotkey : ∀ p ∈ m.reverse_map, p.1 ≠ name :=
        (rmFind_eq_none_iff m.reverse_map name).mp hfind
      refine ⟨by simpa [length_setAt] using hlen, ?_, ?_, ?_, ?_⟩
      · rw [getAt_setAt_ne _ id 0 _ hid0]
        exact hslot0
      · simp only [List.map_append, List.map_cons, List.map_nil]
        rw [List.nodup_append]
        refine ⟨hnd, by simp, ?_⟩
        intro a ha hb
        obtain rfl : a = name := by simpa using hb
        obtain ⟨p, hp, hpa⟩ := List.mem_map.mp ha
        exact hnotkey p hp hpa
      · intro p hp
        rcases List.mem_append.mp hp with hp1 | hp2
        · obtain ⟨h1, h2, h3⟩ := hrev p hp1
          have hpid : p.2 ≠ id := by
            intro he
            rw [he, hempty] at h2
            exact h3 h2.symm
          exact ⟨by simpa [length_setAt] using h1,
            by rw [getAt_setAt_ne _ id p.2 _ (fun he => hpid he.symm)]; exact h2, h3⟩
        · obtain rfl : p = (name, id) := by simpa using hp2
          exact ⟨by simpa [length_setAt] using hid,
            getAt_setAt_eq _ id _ hid, hname⟩
      · intro i hi hne
        rw [length_setAt] at hi
        by_cases hieq : i = id
        · subst hieq
          rw [getAt_setAt_eq _ i _ hi] at hne ⊢
          rw [rmFind_append_of_none _ _ _ hfind]
          simp [rmFind]
        · rw [getAt_setAt_ne _ id i _ (fun he => hieq he.symm)] at hne ⊢
          exact rmFind_append_of_some _ _ _ _ (hfwd i hi hne)
  · rw [if_neg hid] at h
    exact absurd h (by simp)

theorem Invariant_GetOrCreateId (m : IdNameMap) (name : String)
    (hinv : Invariant m) (hname : name ≠ "") :
    Invariant (m.GetOrCreateId name).2 := by
  obtain ⟨hlen, hslot0, hnd, hrev, hfwd⟩ := hinv
  unfold IdNameMap.GetOrCreateId
  cases hfind : rmFind m.reverse_map name with
  | some j => exact ⟨hlen, hslot0, hnd, hrev, hfwd⟩
  | none =>
    have hnotkey : ∀ p ∈ m.reverse_map, p.1 ≠ name :=
      (rmFind_eq_none_iff m.reverse_map name).mp hfind
    refine ⟨by simp [Nat.lt_succ_of_lt hlen], ?_, ?_, ?_, ?_⟩
    · rw [getAt_append_lt _ _ 0 hlen]
      exact hslot0
    · simp only [List.map_append, List.map_cons, List.map_nil]
      rw [List.nodup_append]
      refine ⟨hnd, by simp, ?_⟩
      intro a ha hb
      obtain rfl : a = name := by simpa using hb
      obtain ⟨p, hp, hpa⟩ := List.mem_map.mp ha
      exact hnotkey p hp hpa
    · intro p hp
      rcases List.mem_append.mp hp with hp1 | hp2
      · obtain ⟨h1, h2, h3⟩ := hrev p hp1
        exact ⟨by simp [Nat.lt_succ_of_lt h1],
          by rw [getAt_append_lt _ _ p.2 h1]; exact h2, h3⟩
      · obtain rfl : p = (name, m.name_map.length) := by simpa using hp2
        exact ⟨by simp, getAt_append_len _ _, hname⟩
    · intro i hi hne
      by_cases hieq : i = m.name_map.length
      · subst hieq
        rw [getAt_append_len _ _] at hne ⊢
        rw [rmFind_append_of_none _ _ _ hfind]
        simp [rmFind]
      · have hilt : i < m.name_map.length := by
          rw [List.length_append, List.length_cons, List.length_nil] at hi
          omega
        rw [getAt_append_lt _ _ i hilt] at hne ⊢
        exact rmFind_append_of_some _ _ _ _ (hfwd i hilt hne)

theorem Invariant_runGood (ops : List RegistryOp) (m m2 : IdNameMap)
    (hinv : Invariant m) (h : runGood m ops = some m2) : Invariant m2 := by
  induction ops generalizing m with
  | nil =>
    obtain rfl : m = m2 := by simpa [runGood] using h
    exact hinv
  | cons op ops ih =>
    rw [runGood] at h
    cases hg : goodOp m op with
    | false =>
      rw [hg] at h
      exact absurd h (by simp)
    | true =>
      rw [hg, if_pos rfl] at h
      cases op with
      | addPair id name =>
        simp only [goodOp, Bool.and_eq_true, decide_eq_true_eq] at hg
        obtain ⟨⟨hname, _⟩, hempty⟩ := hg
        cases happ : m.AddPair id name with
        | none =>
          rw [show applyOp m (.addPair id name) = none from happ] at h
          exact absurd h (by simp)
        | some m1 =>
          rw [show applyOp m (.addPair id name) = some m1 from happ,
            Option.some_bind] at h
          exact ih m1 (Invariant_AddPair m m1 id name hinv hname hempty happ) h
      | getOrCreate name =>
        simp only [goodOp, decide_eq_true_eq] at hg
        simp only [applyOp, Option.some_bind] at h
        exact ih _ (Invariant_GetOrCreateId m name hinv hg) h

theorem length_make (n : Nat) (m : IdNameMap) (h : IdNameMap.make n = some m) :
    m.name_map.length = n := by
  unfold IdNameMap.make IdNameMap.AddPair at h
  by_cases hn : 0 < n
  · simp only [List.length_replicate, hn, if_true, rmFind] at h
    obtain rfl : (⟨setAt (List.replicate n "") 0 "invalid", [("invalid", 0)]⟩ : IdNameMap) = m := by
      simpa using h
    simp [length_setAt]
  · simp only [List.length_replicate] at h
    rw [if_neg (by omega)] at h
    exact absurd h (by simp)

/-- Claim C4: GetOrCreateId is idempotent.  In any registry state, a second
call with the same name returns the same id and leaves the state of the
first call unchanged, and one call grows the reverse map by at most one
entry and the name sequence by at most one slot. -/
theorem C4_GetOrCreateId_idempotent (m : IdNameMap) (n : String) :
    ((m.GetOrCreateId n).2.GetOrCreateId n).1 = (m.GetOrCreateId n).1 ∧
    ((m.GetOrCreateId n).2.GetOrCreateId n).2 = (m.GetOrCreateId n).2 ∧
    (m.GetOrCreateId n).2.reverse_map.length ≤ m.reverse_map.length + 1 ∧
    (m.GetOrCreateId n).2.name_map.length ≤ m.name_map.length + 1 := by
  unfold IdNameMap.GetOrCreateId
  cases hfind : rmFind m.reverse_map n with
  | some id => simp [hfind]
  | none =>
    have hsecond :
        rmFind (m.reverse_map ++ [(n, m.name_map.length)]) n
          = some m.name_map.length := by
      rw [rmFind_append_of_none _ _ _ hfind]
      simp [rmFind]
    simp [hfind, hsecond]

/-- Claim C5: GetId of an unregistered name is the reserved id 0; GetName
of an out-of-range id is the name of the invalid id; for every registered
name x, GetName (GetId x) = x.  All three are total functions.  Stated
under the registry consistency invariant. -/
theorem C5_lookup_inverse (m : IdNameMap) (hinv : Invariant m) :
    (∀ n, rmFind m.reverse_map n = none → m.GetId n = 0) ∧
    (∀ id, m.name_map.length ≤ id → m.GetName id = "invalid") ∧
    (∀ x id, rmFind m.reverse_map x = some id → m.GetName (m.GetId x) = x) := by
  obtain ⟨hlen, hslot0, hnd, hrev, hfwd⟩ := hinv
  refine ⟨?_, ?_, ?_⟩
  · intro n hfind
    unfold IdNameMap.GetId
    rw [hfind]
  · intro id hge
    unfold IdNameMap.GetName
    rw [if_neg (by omega)]
    exact hslot0
  · intro x id hfind
    have hgid : m.GetId x = id := by
      unfold IdNameMap.GetId
      rw [hfind]
    obtain ⟨h1, h2, _⟩ := hrev (x, id) (rmFind_mem _ _ _ hfind)
    rw [hgid]
    unfold IdNameMap.GetName
    rw [if_pos h1]
    exact h2

/-- Witness for C5 at a concrete consistent registry holding the name a. -/
theorem C5_lookup_inverse_witness :
    Invariant ⟨["invalid", "a"], [("invalid", 0), ("a", 1)]⟩ ∧
    rmFind ([("invalid", 0), ("a", 1)] : List (String × Nat)) "a" = some 1 ∧
    IdNameMap.GetName ⟨["invalid", "a"], [("invalid", 0), ("a", 1)]⟩
      (IdNameMap.GetId ⟨["invalid", "a"], [("invalid", 0), ("a", 1)]⟩ "a") = "a" :=
  ⟨by decide, by decide,
    (C5_lookup_inverse ⟨["invalid", "a"], [("invalid", 0), ("a", 1)]⟩
      (by decide)).2.2 "a" 1 (by decide)⟩

/-- Claim C6 counterexample: after registering slot 1 as a, the slot is
already named, yet AddPair 1 b does not fail as the claim demands; it
succeeds and silently overwrites the binding of id 1 (name_map slot 1
becomes b while the stale reverse entry for a remains). -/
theorem C6_counterexample :
    (IdNameMap.make 2).bind (fun m => m.AddPair 1 "a")
      = some ⟨["invalid", "a"], [("invalid", 0), ("a", 1)]⟩ ∧
    getAt (["invalid", "a"] : List String) 1 ≠ "" ∧
    IdNameMap.AddPair ⟨["invalid", "a"], [("invalid", 0), ("a", 1)]⟩ 1 "b"
      = some ⟨["invalid", "b"], [("invalid", 0), ("a", 1), ("b", 1)]⟩ := by
  decide

/-- Claim C6 as amended: AddPair fails at assertion level exactly when the
id is outside the reserved capacity or the name is already a key of the
reverse map (even when it maps to the same id); in every other case it
records the pair, overwriting whatever name the slot held before (a
previously named slot is overwritten without an assertion failure). -/
theorem C6_AddPair_characterization (m : IdNameMap) (id : Nat) (name : String) :
    (m.AddPair id name = none ↔
      (m.name_map.length ≤ id ∨ rmFind m.reverse_map name ≠ none)) ∧
    (∀ m2, m.AddPair id name = some m2 →
      m2.name_map = setAt m.name_map id name ∧
      m2.reverse_map = m.reverse_map ++ [(name, id)]) := by
  unfold IdNameMap.AddPair
  by_cases hid : id < m.name_map.length
  · rw [if_pos hid]
    cases hfind : rmFind m.reverse_map name with
    | some j => simp [hfind, hid, Nat.not_le_of_lt hid]
    | none =>
      constructor
      · simp [Nat.not_le_of_lt hid]
      · intro m2 h
        obtain rfl :
            (⟨setAt m.name_map id name, m.reverse_map ++ [(name, id)]⟩ : IdNameMap) = m2 := by
          simpa using h
        exact ⟨rfl, rfl⟩
  · rw [if_neg hid]
    constructor
    · simp [Nat.le_of_not_lt hid]
    · intro m2 h
      exact absurd h (by simp)

/-- Witness for the amended C6 at a concrete in-range fresh pair. -/
theorem C6_AddPair_characterization_witness :
    IdNameMap.AddPair ⟨["invalid", ""], [("invalid", 0)]⟩ 1 "a"
      = some ⟨["invalid", "a"], [("invalid", 0), ("a", 1)]⟩ ∧
    ((⟨["invalid", "a"], [("invalid", 0), ("a", 1)]⟩ : IdNameMap).name_map
        = setAt ["invalid", ""] 1 "a" ∧
      (⟨["invalid", "a"], [("invalid", 0), ("a", 1)]⟩ : IdNameMap).reverse_map
        = [("invalid", 0)] ++ [("a", 1)]) :=
  ⟨by decide,
    (C6_AddPair_characterization ⟨["invalid", ""], [("invalid", 0)]⟩ 1 "a").2
      ⟨["invalid", "a"], [("invalid", 0), ("a", 1)]⟩ (by decide)⟩

/-- Claim C7 counterexample: the bijection invariant does not hold in every
reachable state.  From a fresh map of capacity 2, the assertion-passing
sequence AddPair 1 a, AddPair 1 b reaches a state whose reverse map still
holds the stale entry a mapping to slot 1 while the slot holds b. -/
theorem C7_counterexample :
    (IdNameMap.make 2).bind
        (fun m0 => runOps m0 [RegistryOp.addPair 1 "a", RegistryOp.addPair 1 "b"])
      = some ⟨["invalid", "b"], [("invalid", 0), ("a", 1), ("b", 1)]⟩ ∧
    ¬ Invariant ⟨["invalid", "b"], [("invalid", 0), ("a", 1), ("b", 1)]⟩ := by
  decide

/-- Claim C7 as amended: the bijection invariant holds in every state
reachable from a freshly constructed map by well-formed calls, i.e. when
every AddPair uses a nonempty name and targets an in-range currently empty
slot and every GetOrCreateId uses a nonempty name. -/
theorem C7_invariant_reachable (n : Nat) (ops : List RegistryOp) (m0 m : IdNameMap)
    (h0 : IdNameMap.make n = some m0) (h : runGood m0 ops = some m) :
    Invariant m :=
  Invariant_runGood ops m0 m (Invariant_make n m0 h0) h

/-- Witness for the amended C7 on a concrete well-formed call sequence. -/
theorem C7_invariant_reachable_witness :
    IdNameMap.make 2 = some ⟨["invalid", ""], [("invalid", 0)]⟩ ∧
    runGood ⟨["invalid", ""], [("invalid", 0)]⟩
        [RegistryOp.addPair 1 "a", RegistryOp.getOrCreate "b"]
      = some ⟨["invalid", "a", "b"], [("invalid", 0), ("a", 1), ("b", 2)]⟩ ∧
    Invariant ⟨["invalid", "a", "b"], [("invalid", 0), ("a", 1), ("b", 2)]⟩ :=
  ⟨by decide, by decide,
    C7_invariant_reachable 2 [RegistryOp.addPair 1 "a", RegistryOp.getOrCreate "b"]
      ⟨["invalid", ""], [("invalid", 0)]⟩
      ⟨["invalid", "a", "b"], [("invalid", 0), ("a", 1), ("b", 2)]⟩
      (by decide) (by decide)⟩

/-- Claim C10: the ShorthandIdNameMap constructor ignores its reservation
argument; the resulting capacity is always 2 * ShorthandId::NumDefinedIds,
independent of the caller-requested reservation, while PropertyIdNameMap
forwards its argument as the capacity. -/
theorem C10_shorthand_reserve_ignored (numDefinedIds r1 r2 : Nat) :
    ShorthandIdNameMap.make numDefinedIds r1 = ShorthandIdNameMap.make numDefinedIds r2 ∧
    (∀ m, ShorthandIdNameMap.make numDefinedIds r1 = some m →
      m.name_map.length = 2 * numDefinedIds) ∧
    (∀ r m, PropertyIdNameMap.make r = some m → m.name_map.length = r) := by
  refine ⟨rfl, ?_, ?_⟩
  · intro m h
    exact length_make _ m h
  · intro r m h
    exact length_make _ m h

/-- Witness for C10 at concrete reservation requests 5 and 9. -/
theorem C10_shorthand_reserve_ignored_witness :
    ShorthandIdNameMap.make 3 5
      = some ⟨["invalid", "", "", "", "", ""], [("invalid", 0)]⟩ ∧
    (⟨["invalid", "", "", "", "", ""], [("invalid", 0)]⟩ : IdNameMap).name_map.length
      = 2 * 3 :=
  ⟨by decide,
    (C10_shorthand_reserve_ignored 3 5 9).2.1
      ⟨["invalid", "", "", "", "", ""], [("invalid", 0)]⟩ (by decide)⟩

/-- A parsed typed value.  The value-parsers are an external capability
(per-property, attached at registration); values are kept opaque as their
textual representation. -/
abbrev Value := String

/-- The `PropertyDictionary` written by the declaration parser: a mapping
from property id to parsed value (provenance metadata omitted; it does not
affect parsing logic). -/
abbrev Dict := List (Nat × Value)

/-- Dictionary lookup by property id. -/
def dictGet : Dict → Nat → Option Value
  | [], _ => none
  | (k, v) :: rest, i => if k = i then some v else dictGet rest i

/-- Remove every entry with the given key. -/
def eraseKey : Dict → Nat → Dict
  | [], _ => []
  | (k, v) :: rest, i => if k = i then eraseKey rest i else (k, v) :: eraseKey rest i

/-- Set a property value in the dictionary; a later write during a single
declaration parse overwrites an earlier one. -/
def dictSet (d : Dict) (i : Nat) (v : Value) : Dict := (i, v) :: eraseKey d i

/-- Perform a sequence of dictionary writes in order. -/
def writeSeq (d : Dict) : List (Nat × Value) → Dict
  | [] => d
  | (i, v) :: rest => writeSeq (dictSet d i v) rest

theorem dictGet_dictSet_eq (d : Dict) (i : Nat) (v : Value) :
    dictGet (dictSet d i v) i = some v := by
  simp [dictSet, dictGet]

theorem dictGet_eraseKey_ne (d : Dict) (i p : Nat) (h : p ≠ i) :
    dictGet (eraseKey d i) p = dictGet d p := by
  induction d with
  | nil => rfl
  | cons e rest ih =>
    obtain ⟨k, v⟩ := e
    by_cases hk : k = i
    · subst hk
      rw [show eraseKey ((k, v) :: rest) k = eraseKey rest k from by simp [eraseKey]]
      rw [ih]
      rw [show dictGet ((k, v) :: rest) p = if k = p then some v else dictGet rest p from rfl]
      rw [if_neg (fun he : k = p => h he.symm)]
    · simp only [eraseKey, if_neg hk]
      by_cases hp : k = p
      · simp [dictGet, hp]
      · simp [dictGet, hp, ih]

theorem dictGet_dictSet_ne (d : Dict) (i p : Nat) (v : Value) (h : p ≠ i) :
    dictGet (dictSet d i v) p = dictGet d p := by
  simp only [dictSet, dictGet, if_neg (fun he : i = p => h he.symm)]
  exact dictGet_eraseKey_ne d i p h

theorem writeSeq_append (d : Dict) (l1 l2 : List (Nat × Value)) :
    writeSeq d (l1 ++ l2) = writeSeq (writeSeq d l1) l2 := by
  induction l1 generalizing d with
  | nil => rfl
  | cons e rest ih =>
    obtain ⟨i, v⟩ := e
    simp [writeSeq, ih]

/-- Split a character stream on a separator, dropping empty tokens; `acc`
holds the characters of the token being scanned, in reverse. -/
def splitChar (sep : Char) : List Char → List Char → List String
  | acc, [] => if acc.isEmpty then [] else [String.mk acc.reverse]
  | acc, c :: cs =>
    if c = sep then
      if acc.isEmpty then splitChar sep [] cs
      else String.mk acc.reverse :: splitChar sep [] cs
    else splitChar sep (c :: acc) cs

/-- Modelled from the spec: whitespace tokenization performed by
`ParsePropertyValues` for shorthand expansion (its body is in the
translation unit absent from the sources).  Splits on spaces and drops
empty tokens; the quote- and parenthesis-atomicity of the full tokenizer
is not exercised by any claim and no quoted input is considered here. -/
def ParsePropertyValues (s : String) : List String :=
  splitChar ' ' [] s.data

/-- Modelled from the spec: the FallThrough branch of
`ParseShorthandDeclaration` (body absent from the sources).  Items and
tokens are walked in lockstep; a token that fails to parse against the
current item leaves that item unset and is retried against the next item;
items remaining when tokens run out are left unset.  Items are the
underlying property ids with their own value-parser `parse`. -/
def FallThroughParse (parse : Nat → String → Option Value) :
    List Nat → List String → Dict → Dict
  | [], _, d => d
  | _ :: _, [], d => d
  | i :: is, t :: ts, d =>
    match parse i t with
    | some v => FallThroughParse parse is ts (dictSet d i v)
    | none => FallThroughParse parse is (t :: ts) d

/-- Modelled from the spec: the Replicate branch of
`ParseShorthandDeclaration` (body absent from the sources).  Items are
walked against tokens one-to-one; a failed parse aborts the whole
declaration; when tokens run out, the last successfully parsed value is
replicated into the remaining items (`last` carries it); no last value
with items remaining is a failure; excess tokens beyond the item count
are an error (spec section 9). -/
def ReplicateParse (parse : Nat → String → Option Value) :
    List Nat → List String → Option Value → Dict → Option Dict
  | [], [], _, d => some d
  | [], _ :: _, _, _ => none
  | i :: is, [], last, d =>
    match last with
    | some v => ReplicateParse parse is [] (some v) (dictSet d i v)
    | none => none
  | i :: is, t :: ts, _, d =>
    match parse i t with
    | some v => ReplicateParse parse is ts (some v) (dictSet d i v)
    | none => none

/-- Parse an ordered list of item-token pairings, aborting on the first
failure; helper of the Box branch. -/
def BoxAssign (parse : Nat → String → Option Value) :
    Dict → List (Nat × String) → Option Dict
  | d, [] => some d
  | d, (i, t) :: ps =>
    match parse i t with
    | some v => BoxAssign parse (dictSet d i v) ps
    | none => none

/-- Modelled from the spec: the Box branch of `ParseShorthandDeclaration`
(body absent from the sources).  Over the four side items top, right,
bottom, left: one token feeds all four sides, two tokens feed (top,
bottom) and (right, left), four tokens feed top, right, bottom, left in
that order; any other token count fails, and a single failed item parse
aborts the whole declaration. -/
def BoxParse (parse : Nat → String → Option Value)
    (items : List Nat) (tokens : List String) (d : Dict) : Option Dict :=
  match items with
  | [top, right, bottom, left] =>
    match tokens with
    | [t] => BoxAssign parse d [(top, t), (right, t), (bottom, t), (left, t)]
    | [t1, t2] => BoxAssign parse d [(top, t1), (right, t2), (bottom, t1), (left, t2)]
    | [t1, t2, t3, t4] =>
        BoxAssign parse d [(top, t1), (right, t2), (bottom, t3), (left, t4)]
    | _ => none
  | _ => none

/-- The list of (item, parsed value) writes performed by the FallThrough
lockstep walk: on a successful parse the pair is recorded and both lists
advance; on a failure the item is skipped and the token retried on the
next item; the walk stops when either list is exhausted. -/
def FallThroughMatch (parse : Nat → String → Option Value) :
    List Nat → List String → List (Nat × Value)
  | [], _ => []
  | _ :: _, [] => []
  | i :: is, t :: ts =>
    match parse i t with
    | some v => (i, v) :: FallThroughMatch parse is ts
    | none => FallThroughMatch parse is (t :: ts)

theorem FallThroughParse_eq_writeSeq (parse : Nat → String → Option Value)
    (items : List Nat) (tokens : List String) (d : Dict) :
    FallThroughParse parse items tokens d
      = writeSeq d (FallThroughMatch parse items tokens) := by
  induction items generalizing tokens d with
  | nil => rfl
  | cons i is ih =>
    cases tokens with
    | nil => rfl
    | cons t ts =>
      cases hp : parse i t with
      | some v =>
        rw [show FallThroughParse parse (i :: is) (t :: ts) d
            = FallThroughParse parse is ts (dictSet d i v) from by
          simp [FallThroughParse, hp]]
        rw [show FallThroughMatch parse (i :: is) (t :: ts)
            = (i, v) :: FallThroughMatch parse is ts from by
          simp [FallThroughMatch, hp]]
        rw [show writeSeq d ((i, v) :: FallThroughMatch parse is ts)
            = writeSeq (dictSet d i v) (FallThroughMatch parse is ts) from rfl]
        exact ih ts (dictSet d i v)
      | none =>
        rw [show FallThroughParse parse (i :: is) (t :: ts) d
            = FallThroughParse parse is (t :: ts) d from by
          simp [FallThroughParse, hp]]
        rw [show FallThroughMatch parse (i :: is) (t :: ts)
            = FallThroughMatch parse is (t :: ts) from by
          simp [FallThroughMatch, hp]]
        exact ih (t :: ts) d

theorem FallThroughMatch_mem (parse : Nat → String → Option Value)
    (items : List Nat) (tokens : List String) (pair : Nat × Value)
    (h : pair ∈ FallThroughMatch parse items tokens) :
    pair.1 ∈ items ∧ ∃ t ∈ tokens, parse pair.1 t = some pair.2 := by
  induction items generalizing tokens with
  | nil => simp [FallThroughMatch] at h
  | cons i is ih =>
    cases tokens with
    | nil => simp [FallThroughMatch] at h
    | cons t ts =>
      cases hp : parse i t with
      | some v =>
        rw [show FallThroughMatch parse (i :: is) (t :: ts)
            = (i, v) :: FallThroughMatch parse is ts from by
          simp [FallThroughMatch, hp]] at h
        rcases List.mem_cons.mp h with rfl | hmem
        · exact ⟨List.mem_cons_self i is, t, List.mem_cons_self t ts, hp⟩
        · obtain ⟨h1, t2, ht2, h2⟩ := ih ts hmem
          exact ⟨List.mem_cons_of_mem i h1, t2, List.mem_cons_of_mem t ht2, h2⟩
      | none =>
        rw [show FallThroughMatch parse (i :: is) (t :: ts)
            = FallThroughMatch parse is (t :: ts) from by
          simp [FallThroughMatch, hp]] at h
        obtain ⟨h1, t2, ht2, h2⟩ := ih (t :: ts) h
        exact ⟨List.mem_cons_of_mem i h1, t2, ht2, h2⟩

theorem dictGet_writeSeq_not_mem (d : Dict) (l : List (Nat × Value)) (p : Nat)
    (h : p ∉ l.map Prod.fst) : dictGet (writeSeq d l) p = dictGet d p := by
  induction l generalizing d with
  | nil => rfl
  | cons e rest ih =>
    obtain ⟨i, v⟩ := e
    have hip : p ≠ i := by
      intro he
      exact h (by simp [he])
    rw [show writeSeq d ((i, v) :: rest) = writeSeq (dictSet d i v) rest from rfl]
    rw [ih (dictSet d i v) (fun hmem => h (by simp at hmem ⊢; exact Or.inr hmem))]
    exact dictGet_dictSet_ne d i p v hip

theorem FallThroughParse_untouched (parse : Nat → String → Option Value)
    (items : List Nat) (tokens : List String) (d : Dict) (p : Nat)
    (h : ∀ t ∈ tokens, parse p t = none) :
    dictGet (FallThroughParse parse items tokens d) p = dictGet d p := by
  induction items generalizing tokens d with
  | nil => rfl
  | cons i is ih =>
    cases tokens with
    | nil => rfl
    | cons t ts =>
      cases hp : parse i t with
      | some v =>
        have hip : i ≠ p := by
          intro he
          rw [he] at hp
          rw [h t (List.mem_cons_self t ts)] at hp
          exact absurd hp (by simp)
        rw [show FallThroughParse parse (i :: is) (t :: ts) d
            = FallThroughParse parse is ts (dictSet d i v) from by
          simp [FallThroughParse, hp]]
        rw [ih ts (dictSet d i v) (fun t2 ht2 => h t2 (List.mem_cons_of_mem t ht2))]
        exact dictGet_dictSet_ne d i p v (fun he => hip he.symm)
      | none =>
        rw [show FallThroughParse parse (i :: is) (t :: ts) d
            = FallThroughParse parse is (t :: ts) d from by
          simp [FallThroughParse, hp]]
        exact ih (t :: ts) d h

theorem FallThroughParse_writes (parse : Nat → String → Option Value)
    (items : List Nat) (tokens : List String) (d : Dict) (p : Nat) :
    dictGet (FallThroughParse parse items tokens d) p = dictGet d p ∨
    ∃ t ∈ tokens, ∃ v, parse p t = some v ∧
      dictGet (FallThroughParse parse items tokens d) p = some v := by
  induction items generalizing tokens d with
  | nil => exact Or.inl rfl
  | cons i is ih =>
    cases tokens with
    | nil => exact Or.inl rfl
    | cons t ts =>
      cases hp : parse i t with
      | some v =>
        rw [show FallThroughParse parse (i :: is) (t :: ts) d
            = FallThroughParse parse is ts (dictSet d i v) from by
          simp [FallThroughParse, hp]]
        rcases ih ts (dictSet d i v) with huntouched | ⟨t2, ht2, v2, hp2, hres⟩
        · by_cases hip : p = i
          · subst hip
            refine Or.inr ⟨t, List.mem_cons_self t ts, v, hp, ?_⟩
            rw [huntouched]
            exact dictGet_dictSet_eq d p v
          · refine Or.inl ?_
            rw [huntouched]
            exact dictGet_dictSet_ne d i p v hip
        · exact Or.inr ⟨t2, List.mem_cons_of_mem t ht2, v2, hp2, hres⟩
      | none =>
        rw [show FallThroughParse parse (i :: is) (t :: ts) d
            = FallThroughParse parse is (t :: ts) d from by
          simp [FallThroughParse, hp]]
        exact ih (t :: ts) d

/-- Claim C3: in the FallThrough branch, a token failing to parse against
the current item is retried unchanged against the next item with the
failed item skipped; items left when tokens run out cause no writes; the
run writes exactly the pairs of the lockstep match walk, each the
successful parse of a token by its own item (so no default is ever
written); any property whose id is not among those matches keeps its prior
dictionary entry exactly — in particular an item whose tried token failed
(even if a later token would suit it) and an item for which no token
parses at all. -/
theorem C3_fallthrough_frame (parse : Nat → String → Option Value)
    (items : List Nat) (tokens : List String) (d : Dict) :
    (∀ i is t ts, parse i t = none →
      FallThroughParse parse (i :: is) (t :: ts) d
        = FallThroughParse parse is (t :: ts) d) ∧
    (FallThroughParse parse items [] d = d) ∧
    (FallThroughParse parse items tokens d
      = writeSeq d (FallThroughMatch parse items tokens)) ∧
    (∀ pair ∈ FallThroughMatch parse items tokens,
      pair.1 ∈ items ∧ ∃ t ∈ tokens, parse pair.1 t = some pair.2) ∧
    (∀ p, p ∉ (FallThroughMatch parse items tokens).map Prod.fst →
      dictGet (FallThroughParse parse items tokens d) p = dictGet d p) ∧
    (∀ i is t ts, parse i t = none → i ∉ is →
      dictGet (FallThroughParse parse (i :: is) (t :: ts) d) i = dictGet d i) ∧
    (∀ p, (∀ t ∈ tokens, parse p t = none) →
      dictGet (FallThroughParse parse items tokens d) p = dictGet d p) := by
  refine ⟨?_, ?_, ?_, ?_, ?_, ?_, ?_⟩
  · intro i is t ts hp
    simp [FallThroughParse, hp]
  · cases items <;> rfl
  · exact FallThroughParse_eq_writeSeq parse items tokens d
  · intro pair hpair
    exact FallThroughMatch_mem parse items tokens pair hpair
  · intro p hp
    rw [FallThroughParse_eq_writeSeq parse items tokens d]
    exact dictGet_writeSeq_not_mem d _ p hp
  · intro i is t ts hp hnotin
    rw [show FallThroughParse parse (i :: is) (t :: ts) d
        = FallThroughParse parse is (t :: ts) d from by
      simp [FallThroughParse, hp]]
    rw [FallThroughParse_eq_writeSeq parse is (t :: ts) d]
    apply dictGet_writeSeq_not_mem
    intro hmem
    obtain ⟨pair, hpair, hfst⟩ := List.mem_map.mp hmem
    have hin := (FallThroughMatch_mem parse is (t :: ts) pair hpair).1
    rw [hfst] at hin
    exact hnotin hin
  · intro p h
    exact FallThroughParse_untouched parse items tokens d p h

/-- Witness for C3: the spec example.  Item 1 (font-style) rejects the
token bold while item 2 (font-weight) would accept it; item 1 keeps its
prior (absent) entry even though a suitable token exists. -/
theorem C3_fallthrough_frame_witness :
    (fun i t2 => if i = 2 then (if t2 = "bold" then some "bold" else none) else none)
        1 "bold" = none ∧
    (1 : Nat) ∉ [2] ∧
    dictGet (FallThroughParse
        (fun i t2 => if i = 2 then (if t2 = "bold" then some "bold" else none) else none)
        [1, 2] ["bold"] []) 1
      = dictGet [] 1 :=
  ⟨by decide, by decide,
    (C3_fallthrough_frame
        (fun i t2 => if i = 2 then (if t2 = "bold" then some "bold" else none) else none)
        [1, 2] ["bold"] []).2.2.2.2.2.1 1 [2] "bold" [] (by decide) (by decide)⟩

theorem ReplicateParse_leading (parse : Nat → String → Option Value)
    (itemsA : List Nat) (tokens : List String) (vals : List Value)
    (rest : List Nat) (moreTokens : List String) (last : Option Value) (d : Dict)
    (hlen : itemsA.length = tokens.length) (hvlen : vals.length = tokens.length)
    (hpt : ∀ j, j < tokens.length →
      parse (itemsA.getD j 0) (tokens.getD j "") = some (vals.getD j "")) :
    ReplicateParse parse (itemsA ++ rest) (tokens ++ moreTokens) last d
      = ReplicateParse parse rest moreTokens
          (vals.foldl (fun _ v => some v) last) (writeSeq d (itemsA.zip vals)) := by
  induction itemsA generalizing tokens vals last d with
  | nil =>
    obtain rfl : tokens = [] := List.length_eq_zero.mp hlen.symm
    obtain rfl : vals = [] := List.length_eq_zero.mp hvlen
    rfl
  | cons i itemsA ih =>
    cases tokens with
    | nil => simp at hlen
    | cons t ts =>
      cases vals with
      | nil => simp at hvlen
      | cons v vs =>
        have h0 : parse i t = some v := by
          have := hpt 0 (by simp)
          simpa using this
        rw [show (i :: itemsA) ++ rest = i :: (itemsA ++ rest) from rfl,
          show (t :: ts) ++ moreTokens = t :: (ts ++ moreTokens) from rfl]
        rw [show ReplicateParse parse (i :: (itemsA ++ rest)) (t :: (ts ++ moreTokens)) last d
            = ReplicateParse parse (itemsA ++ rest) (ts ++ moreTokens) (some v)
                (dictSet d i v) from by
          simp [ReplicateParse, h0]]
        rw [ih ts vs (some v) (dictSet d i v) (by simpa using hlen)
          (by simpa using hvlen) ?_]
        · rfl
        · intro j hj
          have := hpt (j + 1) (by simpa using Nat.succ_lt_succ hj)
          simpa using this

theorem ReplicateParse_exhausted (parse : Nat → String → Option Value)
    (rest : List Nat) (v : Value) (d : Dict) :
    ReplicateParse parse rest [] (some v) d
      = some (writeSeq d (rest.map (fun r => (r, v)))) := by
  induction rest generalizing d with
  | nil => rfl
  | cons r rs ih => simp [ReplicateParse, writeSeq, ih]

theorem foldl_last (vals : List Value) (vlast : Value)
    (h : vals.getLast? = some vlast) (last : Option Value) :
    vals.foldl (fun _ v => some v) last = some vlast := by
  induction vals generalizing last with
  | nil => simp at h
  | cons v vs ih =>
    cases vs with
    | nil =>
      obtain rfl : v = vlast := by simpa using h
      rfl
    | cons v2 vs2 =>
      rw [List.getLast?_cons_cons] at h
      exact ih h (some v)

/-- Claim C2: the Replicate branch walks items against tokens one-to-one;
with fewer tokens than items the last successfully parsed value is
replicated into all remaining items in item order, and any token failing
to parse for its item makes the whole declaration fail with no dictionary
returned. -/
theorem C2_replicate_semantics (parse : Nat → String → Option Value) :
    (∀ (itemsA rest : List Nat) (tokens : List String) (vals : List Value)
        (vlast : Value) (d : Dict),
      itemsA.length = tokens.length → vals.length = tokens.length →
      (∀ j, j < tokens.length →
        parse (itemsA.getD j 0) (tokens.getD j "") = some (vals.getD j "")) →
      vals.getLast? = some vlast →
      ReplicateParse parse (itemsA ++ rest) tokens none d
        = some (writeSeq d (itemsA.zip vals ++ rest.map (fun r => (r, vlast))))) ∧
    (∀ (itemsA : List Nat) (i : Nat) (rest : List Nat) (tokens : List String)
        (t : String) (ts : List String) (vals : List Value) (last : Option Value)
        (d : Dict),
      itemsA.length = tokens.length → vals.length = tokens.length →
      (∀ j, j < tokens.length →
        parse (itemsA.getD j 0) (tokens.getD j "") = some (vals.getD j "")) →
      parse i t = none →
      ReplicateParse parse (itemsA ++ i :: rest) (tokens ++ t :: ts) last d = none) := by
  constructor
  · intro itemsA rest tokens vals vlast d hlen hvlen hpt hlast
    rw [show tokens = tokens ++ [] from by simp]
    rw [ReplicateParse_leading parse itemsA tokens vals rest [] none d hlen hvlen hpt]
    rw [foldl_last vals vlast hlast none]
    rw [ReplicateParse_exhausted parse rest vlast (writeSeq d (itemsA.zip vals))]
    rw [writeSeq_append]
  · intro itemsA i rest tokens t ts vals last d hlen hvlen hpt hfail
    rw [ReplicateParse_leading parse itemsA tokens vals (i :: rest) (t :: ts) last d
      hlen hvlen hpt]
    simp [ReplicateParse, hfail]

/-- Witness for C2: a four item border-color shorthand with tokens red and
green assigns red, green to the first two items and replicates green into
the last two. -/
theorem C2_replicate_semantics_witness :
    ([1, 2].length = (["red", "green"] : List String).length ∧
      (["red", "green"] : List Value).length = (["red", "green"] : List String).length ∧
      (∀ j, j < (["red", "green"] : List String).length →
        (fun _ t => if t = "red" then some "red"
          else if t = "green" then some "green" else (none : Option Value))
          ([1, 2].getD j 0) ((["red", "green"] : List String).getD j "")
          = some ((["red", "green"] : List Value).getD j "")) ∧
      (["red", "green"] : List Value).getLast? = some "green") ∧
    ReplicateParse
        (fun _ t => if t = "red" then some "red"
          else if t = "green" then some "green" else (none : Option Value))
        ([1, 2] ++ [3, 4]) ["red", "green"] none []
      = some (writeSeq []
          ([1, 2].zip (["red", "green"] : List Value)
            ++ [3, 4].map (fun r => (r, ("green" : Value))))) :=
  ⟨⟨by decide, by decide, by decide, by decide⟩,
    (C2_replicate_semantics
        (fun _ t => if t = "red" then some "red"
          else if t = "green" then some "green" else (none : Option Value))).1
      [1, 2] [3, 4] ["red", "green"] ["red", "green"] "green" []
      (by decide) (by decide) (by decide) (by decide)⟩

theorem BoxAssign_none (parse : Nat → String → Option Value) (d : Dict)
    (pairs : List (Nat × String)) (h : ∃ p ∈ pairs, parse p.1 p.2 = none) :
    BoxAssign parse d pairs = none := by
  induction pairs generalizing d with
  | nil =>
    obtain ⟨p, hp, _⟩ := h
    simp at hp
  | cons q qs ih =>
    obtain ⟨i, t⟩ := q
    cases hq : parse i t with
    | none => simp [BoxAssign, hq]
    | some v =>
      obtain ⟨p, hp, hfail⟩ := h
      rcases List.mem_cons.mp hp with rfl | hmem
      · rw [hq] at hfail
        exact absurd hfail (by simp)
      · rw [show BoxAssign parse d ((i, t) :: qs)
            = BoxAssign parse (dictSet d i v) qs from by simp [BoxAssign, hq]]
        exact ih (dictSet d i v) ⟨p, hmem, hfail⟩

/-- Claim C1: the Box branch implements exactly the 1/2/4-token CSS box
model over the side items top, right, bottom, left: one token feeds all
four sides through each side's own parser; two tokens feed (top, bottom)
with the first and (right, left) with the second; four tokens feed top,
right, bottom, left in that order; any other token count fails, and in
each of the three accepted token counts a single failing item parse makes
the whole declaration fail. -/
theorem C1_box_model (parse : Nat → String → Option Value)
    (top right bottom left : Nat) (d : Dict) :
    (∀ t v1 v2 v3 v4,
      parse top t = some v1 → parse right t = some v2 →
      parse bottom t = some v3 → parse left t = some v4 →
      BoxParse parse [top, right, bottom, left] [t] d
        = some (writeSeq d [(top, v1), (right, v2), (bottom, v3), (left, v4)])) ∧
    (∀ t1 t2 v1 v2 v3 v4,
      parse top t1 = some v1 → parse right t2 = some v2 →
      parse bottom t1 = some v3 → parse left t2 = some v4 →
      BoxParse parse [top, right, bottom, left] [t1, t2] d
        = some (writeSeq d [(top, v1), (right, v2), (bottom, v3), (left, v4)])) ∧
    (∀ t1 t2 t3 t4 v1 v2 v3 v4,
      parse top t1 = some v1 → parse right t2 = some v2 →
      parse bottom t3 = some v3 → parse left t4 = some v4 →
      BoxParse parse [top, right, bottom, left] [t1, t2, t3, t4] d
        = some (writeSeq d [(top, v1), (right, v2), (bottom, v3), (left, v4)])) ∧
    (∀ tokens : List String,
      tokens.length ≠ 1 → tokens.length ≠ 2 → tokens.length ≠ 4 →
      BoxParse parse [top, right, bottom, left] tokens d = none) ∧
    (∀ t,
      (parse top t = none ∨ parse right t = none ∨
        parse bottom t = none ∨ parse left t = none) →
      BoxParse parse [top, right, bottom, left] [t] d = none) ∧
    (∀ t1 t2,
      (parse top t1 = none ∨ parse right t2 = none ∨
        parse bottom t1 = none ∨ parse left t2 = none) →
      BoxParse parse [top, right, bottom, left] [t1, t2] d = none) ∧
    (∀ t1 t2 t3 t4,
      (parse top t1 = none ∨ parse right t2 = none ∨
        parse bottom t3 = none ∨ parse left t4 = none) →
      BoxParse parse [top, right, bottom, left] [t1, t2, t3, t4] d = none) := by
  refine ⟨?_, ?_, ?_, ?_, ?_, ?_, ?_⟩
  · intro t v1 v2 v3 v4 h1 h2 h3 h4
    simp [BoxParse, BoxAssign, h1, h2, h3, h4, writeSeq]
  · intro t1 t2 v1 v2 v3 v4 h1 h2 h3 h4
    simp [BoxParse, BoxAssign, h1, h2, h3, h4, writeSeq]
  · intro t1 t2 t3 t4 v1 v2 v3 v4 h1 h2 h3 h4
    simp [BoxParse, BoxAssign, h1, h2, h3, h4, writeSeq]
  · intro tokens hn1 hn2 hn4
    rcases tokens with _ | ⟨t1, _ | ⟨t2, _ | ⟨t3, _ | ⟨t4, _ | ⟨t5, rest⟩⟩⟩⟩⟩
    · rfl
    · simp at hn1
    · simp at hn2
    · rfl
    · simp at hn4
    · rfl
  · intro t h
    show BoxAssign parse d [(top, t), (right, t), (bottom, t), (left, t)] = none
    apply BoxAssign_none
    rcases h with h | h | h | h
    · exact ⟨(top, t), by simp, h⟩
    · exact ⟨(right, t), by simp, h⟩
    · exact ⟨(bottom, t), by simp, h⟩
    · exact ⟨(left, t), by simp, h⟩
  · intro t1 t2 h
    show BoxAssign parse d [(top, t1), (right, t2), (bottom, t1), (left, t2)] = none
    apply BoxAssign_none
    rcases h with h | h | h | h
    · exact ⟨(top, t1), by simp, h⟩
    · exact ⟨(right, t2), by simp, h⟩
    · exact ⟨(bottom, t1), by simp, h⟩
    · exact ⟨(left, t2), by simp, h⟩
  · intro t1 t2 t3 t4 h
    show BoxAssign parse d [(top, t1), (right, t2), (bottom, t3), (left, t4)] = none
    apply BoxAssign_none
    rcases h with h | h | h | h
    · exact ⟨(top, t1), by simp, h⟩
    · exact ⟨(right, t2), by simp, h⟩
    · exact ⟨(bottom, t3), by simp, h⟩
    · exact ⟨(left, t4), by simp, h⟩

/-- Witness for C1: the margin example.  The value 1px 2px 3px 4px
tokenizes to four tokens assigned to top, right, bottom, left in order;
the identity parser accepts each token as its value. -/
theorem C1_box_model_witness :
    ParsePropertyValues "1px 2px 3px 4px" = ["1px", "2px", "3px", "4px"] ∧
    (fun (_ : Nat) (t : String) => some t) 1 "1px" = some "1px" ∧
    BoxParse (fun (_ : Nat) (t : String) => some t) [1, 2, 3, 4]
        ["1px", "2px", "3px", "4px"] []
      = some (writeSeq [] [(1, "1px"), (2, "2px"), (3, "3px"), (4, "4px")]) :=
  ⟨by decide, by decide,
    (C1_box_model (fun (_ : Nat) (t : String) => some t) 1 2 3 4 []).2.2.1
      "1px" "2px" "3px" "4px" "1px" "2px" "3px" "4px" rfl rfl rfl rfl⟩

/-- A property definition: identity, stored default value string, the
inherited and forces-layout flags (its attached value-parser is the
external capability `parse` passed to the operations). -/
structure PropertyDefinition where
  id : Nat
  default_value : String
  inherited : Bool
  forces_layout : Bool
deriving DecidableEq, Repr

/-- Modelled from the spec: `SetPropertyDefaults(dictionary)` (body absent
from the sources).  For every registered property not already present as a
key, parse its stored default-value string and insert the result; keys
already present are left alone. -/
def SetPropertyDefaults (parse : Nat → String → Option Value) :
    List PropertyDefinition → Dict → Dict
  | [], d => d
  | p :: ps, d =>
    match dictGet d p.id with
    | some _ => SetPropertyDefaults parse ps d
    | none =>
      match parse p.id p.default_value with
      | some v => SetPropertyDefaults parse ps (dictSet d p.id v)
      | none => SetPropertyDefaults parse ps d

theorem SetPropertyDefaults_preserves (parse : Nat → String → Option Value)
    (properties : List PropertyDefinition) (d : Dict) (k : Nat) (v : Value)
    (h : dictGet d k = some v) :
    dictGet (SetPropertyDefaults parse properties d) k = some v := by
  induction properties generalizing d with
  | nil => exact h
  | cons p ps ih =>
    cases hd : dictGet d p.id with
    | some w =>
      rw [show SetPropertyDefaults parse (p :: ps) d = SetPropertyDefaults parse ps d
        from by simp [SetPropertyDefaults, hd]]
      exact ih d h
    | none =>
      cases hp : parse p.id p.default_value with
      | some w =>
        rw [show SetPropertyDefaults parse (p :: ps) d
            = SetPropertyDefaults parse ps (dictSet d p.id w) from by
          simp [SetPropertyDefaults, hd, hp]]
        have hk : k ≠ p.id := by
          intro he
          rw [he, hd] at h
          exact absurd h (by simp)
        exact ih (dictSet d p.id w) (by rw [dictGet_dictSet_ne d p.id k w hk]; exact h)
      | none =>
        rw [show SetPropertyDefaults parse (p :: ps) d = SetPropertyDefaults parse ps d
          from by simp [SetPropertyDefaults, hd, hp]]
        exact ih d h

theorem SetPropertyDefaults_isSome (parse : Nat → String → Option Value)
    (properties : List PropertyDefinition) (d : Dict) (k : Nat)
    (h : (dictGet d k).isSome) :
    (dictGet (SetPropertyDefaults parse properties d) k).isSome := by
  obtain ⟨v, hv⟩ := Option.isSome_iff_exists.mp h
  rw [SetPropertyDefaults_preserves parse properties d k v hv]
  rfl

/-- Claim C8: after SetPropertyDefaults every registered property has an
entry (provided every stored default parses); a property absent from the
dictionary receives the parsed result of its stored default-value string;
and any key present before the call keeps its value. -/
theorem C8_defaults_total (parse : Nat → String → Option Value)
    (properties : List PropertyDefinition) (d : Dict) :
    ((∀ p ∈ properties, (parse p.id p.default_value).isSome) →
      ∀ p ∈ properties, (dictGet (SetPropertyDefaults parse properties d) p.id).isSome) ∧
    (∀ k v, dictGet d k = some v →
      dictGet (SetPropertyDefaults parse properties d) k = some v) ∧
    ((properties.map (fun p => p.id)).Nodup →
      ∀ p ∈ properties, dictGet d p.id = none →
      ∀ v, parse p.id p.default_value = some v →
      dictGet (SetPropertyDefaults parse properties d) p.id = some v) := by
  refine ⟨?_, ?_, ?_⟩
  · intro hall
    induction properties generalizing d with
    | nil => intro p hp; simp at hp
    | cons q ps ih =>
      intro p hp
      cases hd : dictGet d q.id with
      | some w =>
        rw [show SetPropertyDefaults parse (q :: ps) d = SetPropertyDefaults parse ps d
          from by simp [SetPropertyDefaults, hd]]
        rcases List.mem_cons.mp hp with rfl | hps
        · exact SetPropertyDefaults_isSome parse ps d p.id (by rw [hd]; rfl)
        · exact ih d (fun r hr => hall r (List.mem_cons_of_mem q hr)) p hps
      | none =>
        obtain ⟨w, hw⟩ := Option.isSome_iff_exists.mp (hall q (List.mem_cons_self q ps))
        rw [show SetPropertyDefaults parse (q :: ps) d
            = SetPropertyDefaults parse ps (dictSet d q.id w) from by
          simp [SetPropertyDefaults, hd, hw]]
        rcases List.mem_cons.mp hp with rfl | hps
        · exact SetPropertyDefaults_isSome parse ps (dictSet d p.id w) p.id
            (by rw [dictGet_dictSet_eq]; rfl)
        · exact ih (dictSet d q.id w) (fun r hr => hall r (List.mem_cons_of_mem q hr)) p hps
  · intro k v h
    exact SetPropertyDefaults_preserves parse properties d k v h
  · intro hnd p hp habsent v hv
    induction properties generalizing d with
    | nil => simp at hp
    | cons q ps ih =>
      have hnd2 : (q.id :: ps.map (fun r => r.id)).Nodup := by simpa using hnd
      have hndtail : (ps.map (fun r => r.id)).Nodup := hnd2.of_cons
      rcases List.mem_cons.mp hp with rfl | hps
      · rw [show SetPropertyDefaults parse (p :: ps) d
            = SetPropertyDefaults parse ps (dictSet d p.id v) from by
          simp [SetPropertyDefaults, habsent, hv]]
        exact SetPropertyDefaults_preserves parse ps (dictSet d p.id v) p.id v
          (dictGet_dictSet_eq d p.id v)
      · have hqp : p.id ≠ q.id := by
          intro he
          have hq : q.id ∈ ps.map (fun r => r.id) := by
            rw [← he]
            exact List.mem_map.mpr ⟨p, hps, rfl⟩
          exact (List.nodup_cons.mp hnd2).1 hq
        cases hd : dictGet d q.id with
        | some w =>
          rw [show SetPropertyDefaults parse (q :: ps) d = SetPropertyDefaults parse ps d
            from by simp [SetPropertyDefaults, hd]]
          exact ih d hndtail hps habsent
        | none =>
          cases hq : parse q.id q.default_value with
          | some w =>
            rw [show SetPropertyDefaults parse (q :: ps) d
                = SetPropertyDefaults parse ps (dictSet d q.id w) from by
              simp [SetPropertyDefaults, hd, hq]]
            exact ih (dictSet d q.id w) hndtail hps
              (by rw [dictGet_dictSet_ne d q.id p.id w hqp]; exact habsent)
          | none =>
            rw [show SetPropertyDefaults parse (q :: ps) d = SetPropertyDefaults parse ps d
              from by simp [SetPropertyDefaults, hd, hq]]
            exact ih d hndtail hps habsent

/-- Witness for C8: registering color with default black and applying the
defaults to an empty dictionary yields color mapping to black. -/
theorem C8_defaults_total_witness :
    (([⟨1, "black", false, false⟩] : List PropertyDefinition).map
        (fun p => p.id)).Nodup ∧
    (⟨1, "black", false, false⟩ : PropertyDefinition) ∈
      ([⟨1, "black", false, false⟩] : List PropertyDefinition) ∧
    dictGet [] 1 = none ∧
    (fun (_ : Nat) (s : String) => some s) 1 "black" = some "black" ∧
    dictGet (SetPropertyDefaults (fun (_ : Nat) (s : String) => some s)
        [⟨1, "black", false, false⟩] []) 1 = some "black" :=
  ⟨by decide, by decide, by decide, by decide,
    (C8_defaults_total (fun (_ : Nat) (s : String) => some s)
        [⟨1, "black", false, false⟩] []).2.2
      (by decide) ⟨1, "black", false, false⟩ (by decide) (by decide)
      "black" (by decide)⟩

/-- The `ShorthandType` enumeration from the header: the four shorthand
resolution strategies. -/
inductive ShorthandType where
  | FallThrough
  | Replicate
  | Box
  | Recursive
deriving DecidableEq, Repr

/-- The tagged union `ShorthandItemId` from the header, as a discriminated
sum: a shorthand item is either an underlying property or a nested
shorthand. -/
inductive ShorthandItemId where
  | property (id : Nat)
  | shorthand (id : Nat)
deriving DecidableEq, Repr

/-- A `ShorthandDefinition`: resolution type and the ordered item list. -/
structure ShorthandDefinition where
  type : ShorthandType
  items : List ShorthandItemId
deriving DecidableEq, Repr

/-- The registration-time state of `PropertySpecification` needed by
`RegisterShorthand`: the two id registries and the committed shorthand
definitions keyed by shorthand id. -/
structure PropertySpecification where
  property_map : IdNameMap
  shorthand_map : IdNameMap
  shorthands : List (Nat × ShorthandDefinition)
deriving DecidableEq, Repr

/-- Modelled from the spec: resolution of one constituent name of a
shorthand (inside `RegisterShorthand`, body absent from the sources): the
name resolves to a registered property, else to a previously registered
shorthand, else fails. -/
def ResolveShorthandItem (ps : PropertySpecification) (name : String) :
    Option ShorthandItemId :=
  match rmFind ps.property_map.reverse_map name with
  | some pid => some (ShorthandItemId.property pid)
  | none =>
    match rmFind ps.shorthand_map.reverse_map name with
    | some sid => some (ShorthandItemId.shorthand sid)
    | none => none

/-- Resolve every constituent name in order; fails as soon as one name
fails to resolve. -/
def ResolveShorthandItems (ps : PropertySpecification) :
    List String → Option (List ShorthandItemId)
  | [] => some []
  | n :: ns =>
    match ResolveShorthandItem ps n with
    | none => none
    | some it =>
      match ResolveShorthandItems ps ns with
      | none => none
      | some its => some (it :: its)

/-- Modelled from the spec: `RegisterShorthand` (body absent from the
sources).  Splits the comma-separated constituent list, resolves each name
to a property or previously registered shorthand, and on success assigns
the shorthand an id and commits the definition with the items in listed
order; if any name fails to resolve it returns false and commits
nothing. -/
def RegisterShorthand (ps : PropertySpecification)
    (shorthand_name property_names : String) (type : ShorthandType) :
    Bool × PropertySpecification :=
  match ResolveShorthandItems ps (splitChar ',' [] property_names.data) with
  | none => (false, ps)
  | some items =>
    let r := ps.shorthand_map.GetOrCreateId shorthand_name
    (true, { ps with
      shorthand_map := r.2,
      shorthands := ps.shorthands ++ [(r.1, ⟨type, items⟩)] })

theorem ResolveShorthandItems_none (ps : PropertySpecification)
    (names : List String) (n : String) (hn : n ∈ names)
    (h : ResolveShorthandItem ps n = none) :
    ResolveShorthandItems ps names = none := by
  induction names with
  | nil => simp at hn
  | cons m ms ih =>
    rcases List.mem_cons.mp hn with rfl | hms
    · simp [ResolveShorthandItems, h]
    · cases hm : ResolveShorthandItem ps m with
      | none => simp [ResolveShorthandItems, hm]
      | some it => simp [ResolveShorthandItems, hm, ih hms]

theorem ResolveShorthandItems_ordered (ps : PropertySpecification)
    (names : List String) (items : List ShorthandItemId)
    (h : ResolveShorthandItems ps names = some items) :
    List.Forall₂ (fun n it => ResolveShorthandItem ps n = some it) names items := by
  induction names generalizing items with
  | nil =>
    obtain rfl : items = [] := by simpa [ResolveShorthandItems] using h.symm
    exact List.Forall₂.nil
  | cons m ms ih =>
    cases hm : ResolveShorthandItem ps m with
    | none => rw [show ResolveShorthandItems ps (m :: ms) = none from by
        simp [ResolveShorthandItems, hm]] at h; exact absurd h (by simp)
    | some it =>
      cases hms : ResolveShorthandItems ps ms with
      | none => rw [show ResolveShorthandItems ps (m :: ms) = none from by
          simp [ResolveShorthandItems, hm, hms]] at h; exact absurd h (by simp)
      | some its =>
        rw [show ResolveShorthandItems ps (m :: ms) = some (it :: its) from by
          simp [ResolveShorthandItems, hm, hms]] at h
        obtain rfl : it :: its = items := by simpa using h
        exact List.Forall₂.cons hm (ih its hms)

/-- Claim C9: RegisterShorthand returns false, with the specification
state unchanged and no definition committed, whenever any constituent name
fails to resolve to a registered property or shorthand; when all names
resolve it returns true and commits exactly one new definition whose items
are the resolutions of the names in listed order. -/
theorem C9_register_shorthand (ps : PropertySpecification)
    (shorthand_name property_names : String) (type : ShorthandType) :
    ((∃ n ∈ splitChar ',' [] property_names.data, ResolveShorthandItem ps n = none) →
      RegisterShorthand ps shorthand_name property_names type = (false, ps)) ∧
    (∀ items,
      ResolveShorthandItems ps (splitChar ',' [] property_names.data) = some items →
      (RegisterShorthand ps shorthand_name property_names type).1 = true ∧
      (RegisterShorthand ps shorthand_name property_names type).2.shorthands
        = ps.shorthands
            ++ [((ps.shorthand_map.GetOrCreateId shorthand_name).1, ⟨type, items⟩)] ∧
      List.Forall₂ (fun n it => ResolveShorthandItem ps n = some it)
        (splitChar ',' [] property_names.data) items) := by
  constructor
  · rintro ⟨n, hn, hres⟩
    rw [RegisterShorthand, ResolveShorthandItems_none ps _ n hn hres]
  · intro items h
    rw [RegisterShorthand, h]
    exact ⟨rfl, rfl, ResolveShorthandItems_ordered ps _ items h⟩

/-- Witness for C9: with the property color registered, registering a
shorthand over the constituent list color succeeds and commits one
definition holding that property item. -/
theorem C9_register_shorthand_witness :
    ResolveShorthandItems
        ⟨⟨["invalid", "color"], [("invalid", 0), ("color", 1)]⟩,
          ⟨["invalid"], [("invalid", 0)]⟩, []⟩
        (splitChar ',' [] ("color" : String).data)
      = some [ShorthandItemId.property 1] ∧
    (RegisterShorthand
        ⟨⟨["invalid", "color"], [("invalid", 0), ("color", 1)]⟩,
          ⟨["invalid"], [("invalid", 0)]⟩, []⟩
        "deco" "color" ShorthandType.FallThrough).1 = true ∧
    (RegisterShorthand
        ⟨⟨["invalid", "color"], [("invalid", 0), ("color", 1)]⟩,
          ⟨["invalid"], [("invalid", 0)]⟩, []⟩
        "deco" "color" ShorthandType.FallThrough).2.shorthands
      = [] ++ [(((⟨["invalid"], [("invalid", 0)]⟩ : IdNameMap).GetOrCreateId "deco").1,
          ⟨ShorthandType.FallThrough, [ShorthandItemId.property 1]⟩)] :=
  ⟨by decide,
    ((C9_register_shorthand
        ⟨⟨["invalid", "color"], [("invalid", 0), ("color", 1)]⟩,
          ⟨["invalid"], [("invalid", 0)]⟩, []⟩
        "deco" "color" ShorthandType.FallThrough).2
      [ShorthandItemId.property 1] (by decide)).1,
    ((C9_register_shorthand
        ⟨⟨["invalid", "color"], [("invalid", 0), ("color", 1)]⟩,
          ⟨["invalid"], [("invalid", 0)]⟩, []⟩
        "deco" "color" ShorthandType.FallThrough).2
      [ShorthandItemId.property 1] (by decide)).2.1⟩

end RocketSpec
